import Mathlib

/-!
Shallow embedding of `src/PmKLogDaemonUtil.c` (pmklogd utility functions):
the bounded string operations `mystrcpy`, `mystrcat`, `mysprintf`, the
process-lock operations `LockProcess` / `UnlockProcess`, and `ParseInt`.

Modelling conventions:
* A byte of memory is a `Nat` (value of the `char`, 0 is the terminator).
* A destination buffer is the list of bytes of its physical allocation;
  the declared capacity (`dstSize`) is a separate `Nat`.  Theorems assume
  the declared capacity does not exceed the allocation, which is the
  caller's obligation in the C code.
* Every store the C code performs (`dst[i] = b`, `memcpy`) is recorded in
  a write trace, so "the call performs no write" and "no write ever lands
  at index ≥ capacity" are directly expressible.
* `ErrPrint` / `DbgPrint` diagnostics are recorded in an ordered trace of
  `Diag` events tagged with the call site they come from.
* A C string argument (`const char *src`) is the list of bytes starting
  at the pointer; `strlen` is the length of its longest zero-free prefix,
  and `memcpy(dst, src, n)` with `n ≤ strlen src` copies `src.take n`.
* A null pointer argument is modelled by an explicit flag (for the
  destination) or by `Option` (for sources).
* `vsnprintf` is modelled by an oracle argument: `none` stands for a
  negative return (formatting error, nothing written), `some out` stands
  for a would-be output `out`, of which it writes the first
  `min out.length (dstSize - 1)` bytes plus a terminator.
-/

/-- A byte of memory (the value of a C `char`, 0 = NUL terminator). -/
abbrev Byte := Nat

/-- Severity of a diagnostic: `ErrPrint` or `DbgPrint`. -/
inductive Sev where
  | err : Sev
  | dbg : Sev
deriving DecidableEq, Repr

/-- The individual diagnostic messages the C file can emit, one
constructor per `ErrPrint`/`DbgPrint` call site. -/
inductive DiagMsg where
  | strcpyNullDst : DiagMsg
  | strcpyBadSize : DiagMsg
  | strcpyNullSrc : DiagMsg
  | strcpyOverflow : DiagMsg
  | strcatNullDst : DiagMsg
  | strcatBadSize : DiagMsg
  | strcatBadLen : DiagMsg
  | strcatNullSrc : DiagMsg
  | strcatOverflow : DiagMsg
  | sprintfNullDst : DiagMsg
  | sprintfBadSize : DiagMsg
  | sprintfNullFmt : DiagMsg
  | sprintfError : DiagMsg
  | sprintfOverflow : DiagMsg
  | lockOpenFailed (err : Int) : DiagMsg
  | lockAcquireContended : DiagMsg
  | lockAcquireFailed (err : Int) : DiagMsg
  | lockTruncateFailed (err : Int) : DiagMsg
  | lockWriteFailed (err : Int) : DiagMsg
deriving DecidableEq, Repr

/-- A diagnostic event: severity plus message. -/
structure Diag where
  sev : Sev
  msg : DiagMsg
deriving DecidableEq, Repr

/-- A destination buffer together with the trace of writes performed on
it (indices, most recent first) and the diagnostics emitted so far. -/
structure WBuf where
  buf : List Byte
  writes : List Nat
  diags : List Diag
deriving DecidableEq, Repr

/-- A single store `dst[i] = b`, recorded in the write trace. -/
def wset (w : WBuf) (i : Nat) (b : Byte) : WBuf :=
  { w with buf := w.buf.set i b, writes := i :: w.writes }

/-- `memcpy(dst + i, s, s.length)`: byte-by-byte stores. -/
def wcopy : WBuf → Nat → List Byte → WBuf
  | w, _, [] => w
  | w, i, b :: bs => wcopy (wset w i b) (i + 1) bs

/-- Emit a diagnostic. -/
def report (w : WBuf) (s : Sev) (m : DiagMsg) : WBuf :=
  { w with diags := w.diags ++ [⟨s, m⟩] }

/-- `strlen` of a C string given as the bytes starting at the pointer:
length of the longest zero-free prefix. -/
def cstrLen (s : List Byte) : Nat := (s.takeWhile (fun b => b != 0)).length

/-- Read the C string stored at the start of a byte list: the bytes up
to the first terminator, or `none` if no terminator is present (reading
past the allocation, undefined behaviour in C). -/
def readCStr : List Byte → Option (List Byte)
  | [] => none
  | b :: bs => if b = 0 then some [] else (readCStr bs).map (fun t => b :: t)

/-- `mystrcpy(dst, dstSize, src)` from `PmKLogDaemonUtil.c`.
`dstNull` models `dst == NULL`, `src = none` models `src == NULL`,
`w` is the destination buffer state. -/
def mystrcpy (dstNull : Bool) (dstSize : Nat) (src : Option (List Byte))
    (w : WBuf) : WBuf :=
  if dstNull then report w .err .strcpyNullDst
  else if dstSize < 1 then report w .err .strcpyBadSize
  else
    let w := wset w 0 0
    match src with
    | none => report w .err .strcpyNullSrc
    | some s =>
      let srcLen := cstrLen s
      let (w, n) :=
        if srcLen ≥ dstSize then (report w .err .strcpyOverflow, dstSize - 1)
        else (w, srcLen)
      wset (wcopy w 0 (s.take n)) n 0

/-- `mystrcat(dst, dstSize, src)` from `PmKLogDaemonUtil.c`.
Returns `none` when `strlen(dst)` would read past the physical
allocation (no terminator anywhere in the buffer: undefined behaviour). -/
def mystrcat (dstNull : Bool) (dstSize : Nat) (src : Option (List Byte))
    (w : WBuf) : Option WBuf :=
  if dstNull then some (report w .err .strcatNullDst)
  else if dstSize < 1 then some (report w .err .strcatBadSize)
  else
    match w.buf.findIdx? (fun b => b == 0) with
    | none => none
    | some dstLen =>
      if dstLen ≥ dstSize then some (report w .err .strcatBadLen)
      else
        match src with
        | none => some (report w .err .strcatNullSrc)
        | some s =>
          let srcLen := cstrLen s
          if srcLen < 1 then some w
          else
            let maxLen := (dstSize - 1) - dstLen
            let (w, n) :=
              if srcLen > maxLen then (report w .err .strcatOverflow, maxLen)
              else (w, srcLen)
            if n > 0 then some (wset (wcopy w dstLen (s.take n)) (dstLen + n) 0)
            else some w

/-- `mysprintf(dst, dstSize, fmt, ...)` from `PmKLogDaemonUtil.c`.
`fmtNull` models `fmt == NULL`; `out` is the `vsnprintf` oracle: `none`
for a negative return (error, nothing written), `some o` for a would-be
output `o` (so `n = o.length`), of which `vsnprintf` writes the first
`min o.length (dstSize - 1)` bytes plus a terminator. -/
def mysprintf (dstNull : Bool) (dstSize : Nat) (fmtNull : Bool)
    (out : Option (List Byte)) (w : WBuf) : WBuf :=
  if dstNull then report w .err .sprintfNullDst
  else if dstSize < 1 then report w .err .sprintfBadSize
  else
    let w := wset w 0 0
    if fmtNull then report w .err .sprintfNullFmt
    else
      match out with
      | none => wset (report w .err .sprintfError) 0 0
      | some o =>
        let n := o.length
        let k := min n (dstSize - 1)
        let w := wset (wcopy w 0 (o.take k)) k 0
        if n ≥ dstSize then wset (report w .err .sprintfOverflow) (dstSize - 1) 0
        else w

/-! ## `ParseInt` and its `strtol(valStr, &endptr, 0)` backend -/

/-- C `isspace` on an ASCII byte (space, tab, newline, vtab, formfeed, cr). -/
def isSpaceB (b : Byte) : Bool := b == 32 || decide (9 ≤ b ∧ b ≤ 13)

/-- Numeric value of an ASCII digit or letter byte, if any
(`0`-`9`, `A`-`Z`, `a`-`z`). -/
def digitCharVal (b : Byte) : Option Nat :=
  if 48 ≤ b ∧ b ≤ 57 then some (b - 48)
  else if 65 ≤ b ∧ b ≤ 90 then some (b - 55)
  else if 97 ≤ b ∧ b ≤ 122 then some (b - 87)
  else none

/-- Value of byte `b` as a digit in the given base, if it is one. -/
def digitVal (base : Nat) (b : Byte) : Option Nat :=
  match digitCharVal b with
  | some v => if v < base then some v else none
  | none => none

/-- Result of `strtol`: the returned `long`, the offset of `endptr` from
the start of the input (0 when no conversion was performed), and the
resulting `errno` (0, or `ERANGE` on overflow). -/
structure StrtolRes where
  value : Int
  consumed : Nat
  errno : Nat
deriving DecidableEq, Repr

def LONG_MAX : Int := 2 ^ 63 - 1

def LONG_MIN : Int := -(2 ^ 63)

def ERANGE : Nat := 34

/-- Number of leading ASCII whitespace bytes `strtol` skips. -/
def strtolWs (s : List Byte) : Nat := (s.takeWhile isSpaceB).length

/-- Whether (1) or not (0) a sign byte follows the whitespace. -/
def strtolSgn (s1 : List Byte) : Nat :=
  match s1 with
  | b :: _ => if b = 45 ∨ b = 43 then 1 else 0
  | [] => 0

/-- Whether the accepted sign is a minus. -/
def strtolNeg (s1 : List Byte) : Bool :=
  match s1 with
  | b :: _ => b == 45
  | [] => false

/-- Base auto-detection: a hexadecimal `0x`/`0X` prefix counts only
when a hex digit follows it. -/
def strtolHex (s2 : List Byte) : Bool :=
  match s2 with
  | b0 :: b1 :: b2 :: _ =>
    b0 == 48 && (b1 == 120 || b1 == 88) && (digitVal 16 b2).isSome
  | _ => false

/-- Base auto-detection: a leading `0` selects octal. -/
def strtolOct (s2 : List Byte) : Bool :=
  match s2 with
  | b0 :: _ => b0 == 48
  | [] => false

/-- The detected base: 16, 8 or 10. -/
def strtolBase (s2 : List Byte) : Nat :=
  if strtolHex s2 then 16 else if strtolOct s2 then 8 else 10

/-- How many prefix bytes (`0x`) the base detection consumes. -/
def strtolPre (s2 : List Byte) : Nat := if strtolHex s2 then 2 else 0

/-- `strtol(s, &endptr, 0)` on a 64-bit `long`: skip ASCII whitespace, an
optional sign, detect the base from a `0x`/`0X` (hex, only when a hex
digit follows) or leading `0` (octal) prefix, consume the digits, and
clamp with `errno = ERANGE` on overflow.  When no digit is consumed,
`endptr` is reset to the start of the input (`consumed = 0`). -/
def strtol0 (s : List Byte) : StrtolRes :=
  let ws := strtolWs s
  let s1 := s.drop ws
  let sgn := strtolSgn s1
  let neg := strtolNeg s1
  let s2 := s1.drop sgn
  let base := strtolBase s2
  let pre := strtolPre s2
  let s3 := s2.drop pre
  let ds := s3.takeWhile (fun b => (digitVal base b).isSome)
  if ds.length = 0 then ⟨0, 0, 0⟩
  else
    let mag : Nat := ds.foldl (fun acc b => acc * base + (digitVal base b).getD 0) 0
    let consumed := ws + sgn + pre + ds.length
    let vRaw : Int := if neg then -(mag : Int) else (mag : Int)
    if vRaw > LONG_MAX then ⟨LONG_MAX, consumed, ERANGE⟩
    else if vRaw < LONG_MIN then ⟨LONG_MIN, consumed, ERANGE⟩
    else ⟨vRaw, consumed, 0⟩

/-- The C cast `(int) n` on a 64-bit `long`: wrap into
`[-2^31, 2^31)` (two's-complement narrowing). -/
def intCast32 (n : Int) : Int := (n + 2 ^ 31) % 2 ^ 32 - 2 ^ 31

/-- `ParseInt(valStr, nP)` from `PmKLogDaemonUtil.c`.  `n0` is the value
stored at `nP` before the call; the result pairs the returned `bool`
with the value stored at `nP` after the call. -/
def ParseInt (valStr : List Byte) (n0 : Int) : Bool × Int :=
  let r := strtol0 valStr
  let endByte : Byte := valStr.getD r.consumed 0
  if r.consumed = 0 ∨ endByte ≠ 0 ∨ r.errno ≠ 0 then (false, n0)
  else (true, intCast32 r.value)

/-! ## Process lock: `LockProcess` / `UnlockProcess` -/

/-- A system call performed by the lock manager, with its arguments. -/
inductive Sys where
  | mkdirCall : Sys
  | openCall (path : List Byte) : Sys
  | lockfCall (fd : Int) : Sys
  | ftruncateCall (fd : Int) : Sys
  | writeCall (fd : Int) (bytes : List Byte) : Sys
  | closeCall (fd : Int) : Sys
  | unlinkCall (path : List Byte) : Sys
deriving DecidableEq, Repr

/-- The `LockFile` struct: the `path[PATH_MAX]` buffer (physical bytes)
and the `fd` field. -/
structure LockFile where
  path : List Byte
  fd : Int
deriving DecidableEq, Repr

def PATH_MAX : Nat := 4096

def EDEADLK : Int := 35

def EAGAIN : Int := 11

/-- Outcomes of the OS calls `LockProcess` makes, supplied as an
environment: the process id, the `open` result (descriptor or `errno`),
the `lockf` failure `errno` (if any), and the `ftruncate` / `write`
outcomes with their `errno` values. -/
structure LockEnv where
  pid : Nat
  openRes : Except Int Int
  lockfErr : Option Int
  ftruncateOk : Bool
  ftruncateErr : Int
  writeRes : Int
  writeErr : Int

/-- What a `LockProcess` call produced: the returned `bool`, the updated
`g_processLock` singleton, the diagnostics, and the system calls made. -/
structure LockRet where
  ok : Bool
  lock : LockFile
  diags : List Diag
  calls : List Sys

/-- ASCII bytes of a string literal. -/
def strBytes (s : String) : List Byte := s.toList.map Char.toNat

def locksDirBytes : List Byte := strBytes "/tmp/run"

def dotPidBytes : List Byte := strBytes ".pid"

/-- `%d` rendering of a (nonnegative) pid. -/
def decBytes (n : Nat) : List Byte := (Nat.toDigits 10 n).map Char.toNat

/-- `LockProcess(component)` from `PmKLogDaemonUtil.c`, over the OS
environment `env`, starting from singleton state `lock`. -/
def LockProcess (component : List Byte) (env : LockEnv) (lock : LockFile) :
    LockRet :=
  let pathOut := locksDirBytes ++ 47 :: component.takeWhile (fun b => b != 0)
    ++ dotPidBytes
  let w1 := mysprintf false PATH_MAX false (some pathOut) ⟨lock.path, [], []⟩
  let lock : LockFile := { lock with path := w1.buf }
  let pathStr := (readCStr lock.path).getD []
  let calls := [Sys.mkdirCall, Sys.openCall pathStr]
  let diags := w1.diags
  match env.openRes with
  | .error e =>
    { ok := false, lock := lock,
      diags := diags ++ [⟨.err, .lockOpenFailed e⟩], calls := calls }
  | .ok fd =>
    let calls := calls ++ [Sys.lockfCall fd]
    match env.lockfErr with
    | some e =>
      let d : Diag :=
        if e = EDEADLK ∨ e = EAGAIN then ⟨.err, .lockAcquireContended⟩
        else ⟨.err, .lockAcquireFailed e⟩
      { ok := false, lock := lock, diags := diags ++ [d], calls := calls }
    | none =>
      let calls := calls ++ [Sys.ftruncateCall fd]
      let diags := diags ++
        (if env.ftruncateOk then [] else [⟨.dbg, .lockTruncateFailed env.ftruncateErr⟩])
      let pidOut := decBytes env.pid ++ [10]
      let wp := mysprintf false 16 false (some pidOut) ⟨List.replicate 16 0, [], []⟩
      let diags := diags ++ wp.diags
      let pidStr := (readCStr wp.buf).getD []
      let calls := calls ++ [Sys.writeCall fd pidStr]
      let diags := diags ++
        (if env.writeRes < (pidStr.length : Int)
         then [⟨.dbg, .lockWriteFailed env.writeErr⟩] else [])
      { ok := true, lock := { lock with fd := fd }, diags := diags, calls := calls }

/-- `UnlockProcess()` from `PmKLogDaemonUtil.c`: the system calls it
makes on the singleton state `lock`. -/
def UnlockProcess (lock : LockFile) : List Sys :=
  [Sys.closeCall lock.fd, Sys.unlinkCall ((readCStr lock.path).getD [])]

/-- Abstract OS state the lock manager's calls can affect: the open file
descriptors and the existing files (by path). -/
structure OS where
  fds : List Int
  files : List (List Byte)
deriving DecidableEq, Repr

/-- Effect of one system call on the abstract OS state.  `close(fd)`
closes `fd` if it is open (and fails with `EBADF`, no effect, otherwise);
`unlink(path)` on an empty path fails with `ENOENT` (no effect), else
removes the file if it exists.  The other calls do not change this
abstraction. -/
def applySys (os : OS) : Sys → OS
  | .closeCall fd => { os with fds := os.fds.erase fd }
  | .unlinkCall p => if p = [] then os else { os with files := os.files.erase p }
  | _ => os

/-- Run a list of system calls against the abstract OS state. -/
def runSys (os : OS) (l : List Sys) : OS := l.foldl applySys os

/-! ## Helper lemmas about the buffer model -/

theorem wcopy_diags (s : List Byte) :
    ∀ (w : WBuf) (i : Nat), (wcopy w i s).diags = w.diags := by
  induction s with
  | nil => intro w i; rfl
  | cons b bs ih => intro w i; simp [wcopy, ih, wset]

theorem wcopy_writes_mem (s : List Byte) :
    ∀ (w : WBuf) (i : Nat), ∀ j ∈ (wcopy w i s).writes,
      j ∈ w.writes ∨ (i ≤ j ∧ j < i + s.length) := by
  induction s with
  | nil => intro w i j hj; exact Or.inl hj
  | cons b bs ih =>
    intro w i j hj
    rcases ih (wset w i b) (i + 1) j hj with h | h
    · simp only [wset, List.mem_cons] at h
      rcases h with rfl | h
      · exact Or.inr ⟨Nat.le_refl _, by simp [Nat.lt_add_of_pos_right]⟩
      · exact Or.inl h
    · exact Or.inr ⟨Nat.le_of_succ_le h.1, by simpa [Nat.add_comm, Nat.add_assoc,
        Nat.add_left_comm] using h.2⟩

theorem wcopy_buf_len (s : List Byte) :
    ∀ (w : WBuf) (i : Nat), (wcopy w i s).buf.length = w.buf.length := by
  induction s with
  | nil => intro w i; rfl
  | cons b bs ih => intro w i; simp [wcopy, ih, wset]

theorem wcopy_buf (s : List Byte) :
    ∀ (w : WBuf) (i : Nat), i + s.length ≤ w.buf.length →
      (wcopy w i s).buf = w.buf.take i ++ s ++ w.buf.drop (i + s.length) := by
  induction s with
  | nil => intro w i h; simp [wcopy]
  | cons b bs ih =>
    intro w i h
    have hi : i < w.buf.length := by simp at h; omega
    have h' : i + 1 + bs.length ≤ (wset w i b).buf.length := by
      simp [wset]; simp at h; omega
    rw [wcopy, ih _ _ h']
    have hset : (wset w i b).buf = w.buf.take i ++ b :: w.buf.drop (i + 1) := by
      simp [wset, List.set_eq_take_append_cons_drop, hi]
    rw [hset]
    have hlt : (w.buf.take i).length = i := by simp; omega
    have t1 : (w.buf.take i ++ b :: w.buf.drop (i + 1)).take (i + 1) =
        w.buf.take i ++ [b] := by
      rw [List.take_append_eq_append_take,
        List.take_of_length_le (by rw [hlt]; omega), hlt]
      have h1 : i + 1 - i = 1 := by omega
      rw [h1]
      rfl
    have t2 : (w.buf.take i ++ b :: w.buf.drop (i + 1)).drop (i + 1 + bs.length) =
        w.buf.drop (i + 1 + bs.length) := by
      rw [List.drop_append_eq_append_drop,
        List.drop_of_length_le (by rw [hlt]; omega), hlt]
      have h1 : i + 1 + bs.length - i = bs.length + 1 := by omega
      rw [h1, List.nil_append, List.drop_succ_cons, List.drop_drop]
    rw [t1, t2]
    have h2 : i + (b :: bs).length = i + 1 + bs.length := by simp; omega
    rw [h2]
    simp

/-- Storing `s` at offset `i` and a terminator right after it. -/
theorem wset_wcopy_buf (w : WBuf) (i : Nat) (s : List Byte)
    (h : i + s.length < w.buf.length) :
    (wset (wcopy w i s) (i + s.length) 0).buf =
      w.buf.take i ++ s ++ 0 :: w.buf.drop (i + s.length + 1) := by
  show (wcopy w i s).buf.set (i + s.length) 0 = _
  rw [wcopy_buf s w i (Nat.le_of_lt h)]
  have hlen : (w.buf.take i ++ s).length = i + s.length := by simp; omega
  have hdrop : w.buf.drop (i + s.length) =
      w.buf[i + s.length] :: w.buf.drop (i + s.length + 1) :=
    List.drop_eq_getElem_cons h
  rw [hdrop, List.set_append_right _ _ (le_of_eq hlen), hlen, Nat.sub_self,
    List.set_cons_zero]

theorem readCStr_append (p r : List Byte) (hp : ∀ b ∈ p, b ≠ 0) :
    readCStr (p ++ 0 :: r) = some p := by
  induction p with
  | nil => simp [readCStr]
  | cons b bs ih =>
    have hb : b ≠ 0 := hp b (List.mem_cons_self b bs)
    simp only [List.cons_append, readCStr, if_neg hb, List.append_eq]
    rw [ih (fun x hx => hp x (List.mem_cons_of_mem b hx))]
    rfl

theorem readCStr_isSome_of_zero_mem (l : List Byte) (h : (0 : Byte) ∈ l) :
    (readCStr l).isSome = true := by
  induction l with
  | nil => simp at h
  | cons b bs ih =>
    by_cases hb : b = 0
    · subst hb; simp [readCStr]
    · simp only [readCStr, if_neg hb]
      rcases List.mem_cons.1 h with h0 | h0
      · exact absurd h0.symm hb
      · simpa using ih h0

theorem zero_mem_take (p rest : List Byte) (c : Nat) (h : p.length < c) :
    (0 : Byte) ∈ (p ++ 0 :: rest).take c := by
  rw [List.take_append_eq_append_take, List.take_of_length_le (Nat.le_of_lt h)]
  refine List.mem_append.2 (Or.inr ?_)
  rcases Nat.exists_eq_add_of_le (show 1 ≤ c - p.length by omega) with ⟨k, hk⟩
  rw [hk, Nat.add_comm 1 k, List.take_succ_cons]
  exact List.mem_cons_self 0 _

theorem cstrLen_le (s : List Byte) : cstrLen s ≤ s.length := by
  induction s with
  | nil => simp [cstrLen]
  | cons b bs ih =>
    by_cases hb : b = 0
    · subst hb; simp [cstrLen, List.takeWhile_cons]
    · simp only [cstrLen] at ih ⊢
      rw [List.takeWhile_cons_of_pos (by simpa using hb)]
      simp only [List.length_cons]
      omega

theorem cstrLen_eq_length (s : List Byte) (h : (0 : Byte) ∉ s) :
    cstrLen s = s.length := by
  induction s with
  | nil => rfl
  | cons b bs ih =>
    have hb : b ≠ 0 := fun hb => h (by simp [hb])
    simp only [cstrLen] at ih ⊢
    rw [List.takeWhile_cons_of_pos (by simpa using hb)]
    simp only [List.length_cons]
    rw [ih (fun hm => h (List.mem_cons_of_mem b hm))]

theorem take_cstrLen_ne_zero (s : List Byte) (n : Nat) (hn : n ≤ cstrLen s) :
    ∀ b ∈ s.take n, b ≠ 0 := by
  intro b hb
  have hsub : s.take n = (s.takeWhile (fun x => x != 0)).take n := by
    conv_lhs => rw [← List.takeWhile_append_dropWhile (fun x => x != 0) s]
    rw [List.take_append_eq_append_take]
    have : n - (s.takeWhile (fun x => x != 0)).length = 0 := by
      simp [cstrLen] at hn; omega
    rw [this]
    simp
  rw [hsub] at hb
  have := List.mem_takeWhile_imp (List.mem_of_mem_take hb)
  simpa using this

theorem findIdx?_zero_append (p r : List Byte) (hp : ∀ b ∈ p, b ≠ 0) :
    (p ++ 0 :: r).findIdx? (fun b => b == 0) = some p.length := by
  induction p with
  | nil => simp
  | cons b bs ih =>
    have hb : b ≠ 0 := hp b (List.mem_cons_self b bs)
    simp only [List.cons_append, List.findIdx?_cons, beq_iff_eq, if_neg hb,
      List.findIdx?_succ]
    rw [ih (fun x hx => hp x (List.mem_cons_of_mem b hx))]
    simp

/-- Variant of `wset_wcopy_buf` at offset 0 with the store index given
as an arbitrary expression equal to the copied length. -/
theorem wset_wcopy_buf0 (w : WBuf) (s : List Byte) (n : Nat) (hn : s.length = n)
    (h : n < w.buf.length) :
    (wset (wcopy w 0 s) n 0).buf = s ++ 0 :: w.buf.drop (n + 1) := by
  subst hn
  have := wset_wcopy_buf w 0 s (by simpa using h)
  simpa using this

/-- Variant of `wset_wcopy_buf` with the store index given as an
arbitrary expression equal to offset plus copied length. -/
theorem wset_wcopy_buf_at (w : WBuf) (i : Nat) (s : List Byte) (n : Nat)
    (hn : i + s.length = n) (h : n < w.buf.length) :
    (wset (wcopy w i s) n 0).buf =
      w.buf.take i ++ s ++ 0 :: w.buf.drop (n + 1) := by
  subst hn
  exact wset_wcopy_buf w i s h

/-! ## Characterisation of `mystrcpy` on a valid destination -/

/-- Buffer contents after `mystrcpy` with a non-null source: the first
`min (strlen src) (c - 1)` source bytes, a terminator, and the rest of
the allocation unchanged. -/
theorem mystrcpy_buf_eq (c : Nat) (s buf : List Byte) (hc : 1 ≤ c)
    (hb : c ≤ buf.length) :
    (mystrcpy false c (some s) ⟨buf, [], []⟩).buf =
      s.take (min (cstrLen s) (c - 1)) ++
        0 :: buf.drop (min (cstrLen s) (c - 1) + 1) := by
  have hlt : ¬ (c < 1) := by omega
  have hsl := cstrLen_le s
  by_cases hov : cstrLen s ≥ c
  · simp only [mystrcpy, Bool.false_eq_true, if_false, if_neg hlt, if_pos hov]
    rw [Nat.min_eq_right (by omega)]
    rw [wset_wcopy_buf0 _ _ _ (by simp; omega) (by simp [wset, report]; omega)]
    simp [wset, report, List.drop_set, Nat.lt_irrefl]
  · simp only [mystrcpy, Bool.false_eq_true, if_false, if_neg hlt, if_neg hov]
    rw [Nat.min_eq_left (by omega)]
    rw [wset_wcopy_buf0 _ _ _ (by simp; omega) (by simp [wset]; omega)]
    simp [wset, List.drop_set, Nat.lt_irrefl]

/-- Diagnostics of `mystrcpy` with a valid destination and non-null
source: exactly one truncation report when `strlen src ≥ c`, none
otherwise. -/
theorem mystrcpy_diags_eq (c : Nat) (s buf : List Byte) (hc : 1 ≤ c) :
    (mystrcpy false c (some s) ⟨buf, [], []⟩).diags =
      if c ≤ cstrLen s then [⟨.err, .strcpyOverflow⟩] else [] := by
  have hlt : ¬ (c < 1) := by omega
  by_cases hov : cstrLen s ≥ c
  · simp only [mystrcpy, Bool.false_eq_true, if_false, if_neg hlt, if_pos hov,
      if_pos (show c ≤ cstrLen s from hov)]
    simp [wset, report, wcopy_diags]
  · simp only [mystrcpy, Bool.false_eq_true, if_false, if_neg hlt, if_neg hov,
      if_neg (show ¬ c ≤ cstrLen s from hov)]
    simp [wset, wcopy_diags]

/-- Every write `mystrcpy` performs on a valid destination of declared
capacity `c ≥ 1` lands strictly below index `c`. -/
theorem mystrcpy_writes_lt (c : Nat) (src : Option (List Byte)) (buf : List Byte)
    (hc : 1 ≤ c) :
    ∀ j ∈ (mystrcpy false c src ⟨buf, [], []⟩).writes, j < c := by
  have hlt : ¬ (c < 1) := by omega
  intro j hj
  match src with
  | none =>
    simp only [mystrcpy, Bool.false_eq_true, if_false, if_neg hlt, report, wset,
      List.mem_cons, List.not_mem_nil, or_false] at hj
    omega
  | some s =>
    have hsl := cstrLen_le s
    by_cases hov : cstrLen s ≥ c
    · simp only [mystrcpy, Bool.false_eq_true, if_false, if_neg hlt, if_pos hov,
        wset, List.mem_cons] at hj
      rcases hj with rfl | hj
      · omega
      · rcases wcopy_writes_mem _ _ _ _ hj with h | h
        · simp [report, wset] at h
          omega
        · simp at h
          omega
    · simp only [mystrcpy, Bool.false_eq_true, if_false, if_neg hlt, if_neg hov,
        wset, List.mem_cons] at hj
      rcases hj with rfl | hj
      · omega
      · rcases wcopy_writes_mem _ _ _ _ hj with h | h
        · simp [wset] at h
          omega
        · simp at h
          omega

/-! ## Characterisation of `mysprintf` on a valid destination -/

/-- Buffer contents after `mysprintf` with a valid destination, valid
format and successful formatting: the first `min n (c - 1)` output
bytes, a terminator, and the rest of the allocation unchanged. -/
theorem mysprintf_buf_some (c : Nat) (o buf : List Byte) (hc : 1 ≤ c)
    (hb : c ≤ buf.length) :
    (mysprintf false c false (some o) ⟨buf, [], []⟩).buf =
      o.take (min o.length (c - 1)) ++
        0 :: buf.drop (min o.length (c - 1) + 1) := by
  have hlt : ¬ (c < 1) := by omega
  by_cases hov : o.length ≥ c
  · have hk : min o.length (c - 1) = c - 1 := Nat.min_eq_right (by omega)
    simp only [mysprintf, Bool.false_eq_true, if_false, if_neg hlt, if_pos hov, hk]
    have hinner : (wset (wcopy (wset ⟨buf, [], []⟩ 0 0) 0 (o.take (c - 1)))
        (c - 1) 0).buf = o.take (c - 1) ++ 0 :: buf.drop (c - 1 + 1) := by
      rw [wset_wcopy_buf0 _ _ _ (by simp; omega) (by simp [wset]; omega)]
      simp [wset, List.drop_set, Nat.lt_irrefl]
    show ((wset (wcopy (wset ⟨buf, [], []⟩ 0 0) 0 (o.take (c - 1)))
        (c - 1) 0).buf).set (c - 1) 0 = _
    rw [hinner]
    have hlen : (o.take (c - 1)).length = c - 1 := by simp; omega
    rw [List.set_append_right _ _ (le_of_eq hlen), hlen, Nat.sub_self,
      List.set_cons_zero]
  · have hk : min o.length (c - 1) = o.length := Nat.min_eq_left (by omega)
    simp only [mysprintf, Bool.false_eq_true, if_false, if_neg hlt, if_neg hov, hk]
    rw [wset_wcopy_buf0 _ _ _ (by simp) (by simp [wset]; omega)]
    simp [wset, List.drop_set, Nat.lt_irrefl]

/-- Buffer contents after `mysprintf` on a formatting failure: the
destination is forced to the empty string. -/
theorem mysprintf_buf_none (c : Nat) (buf : List Byte) (hc : 1 ≤ c) :
    (mysprintf false c false none ⟨buf, [], []⟩).buf = buf.set 0 0 := by
  have hlt : ¬ (c < 1) := by omega
  simp only [mysprintf, Bool.false_eq_true, if_false, if_neg hlt, wset, report,
    List.set_set]

/-- Diagnostics of `mysprintf` with a valid destination and format:
exactly one truncation report when the output reaches the capacity,
one error report on formatting failure, none otherwise. -/
theorem mysprintf_diags_eq (c : Nat) (out : Option (List Byte)) (buf : List Byte)
    (hc : 1 ≤ c) :
    (mysprintf false c false out ⟨buf, [], []⟩).diags =
      match out with
      | none => [⟨.err, .sprintfError⟩]
      | some o => if c ≤ o.length then [⟨.err, .sprintfOverflow⟩] else [] := by
  have hlt : ¬ (c < 1) := by omega
  have hc0 : ¬ (c = 0) := by omega
  match out with
  | none =>
    simp [mysprintf, if_neg hlt, hc0, wset, report]
  | some o =>
    by_cases hov : o.length ≥ c
    · simp only [mysprintf, Bool.false_eq_true, if_false, if_neg hlt, if_pos hov,
        if_pos (show c ≤ o.length from hov), wset, report, wcopy_diags,
        List.nil_append]
    · simp only [mysprintf, Bool.false_eq_true, if_false, if_neg hlt, if_neg hov,
        if_neg (show ¬ c ≤ o.length from hov), wset, report]
      simp [wcopy_diags, wset]

/-- Every write `mysprintf` performs on a valid destination of declared
capacity `c ≥ 1` lands strictly below index `c`. -/
theorem mysprintf_writes_lt (c : Nat) (fmtNull : Bool) (out : Option (List Byte))
    (buf : List Byte) (hc : 1 ≤ c) :
    ∀ j ∈ (mysprintf false c fmtNull out ⟨buf, [], []⟩).writes, j < c := by
  have hlt : ¬ (c < 1) := by omega
  intro j hj
  match fmtNull with
  | true =>
    simp only [mysprintf, Bool.false_eq_true, if_false, if_neg hlt, if_true,
      report, wset, List.mem_cons, List.not_mem_nil, or_false] at hj
    omega
  | false =>
    match out with
    | none =>
      simp only [mysprintf, Bool.false_eq_true, if_false, if_neg hlt, wset,
        report, List.mem_cons, List.not_mem_nil, or_false] at hj
      rcases hj with rfl | rfl <;> omega
    | some o =>
      by_cases hov : o.length ≥ c
      · simp only [mysprintf, Bool.false_eq_true, if_false, if_neg hlt,
          if_pos hov, wset, report, List.mem_cons] at hj
        rcases hj with rfl | hj
        · omega
        · rcases hj with rfl | hj
          · have := Nat.min_le_right o.length (c - 1)
            omega
          · rcases wcopy_writes_mem _ _ _ _ hj with h | h
            · simp [wset] at h
              omega
            · simp at h
              have := Nat.min_le_right o.length (c - 1)
              omega
      · simp only [mysprintf, Bool.false_eq_true, if_false, if_neg hlt,
          if_neg hov, wset, List.mem_cons] at hj
        rcases hj with rfl | hj
        · have := Nat.min_le_right o.length (c - 1)
          omega
        · rcases wcopy_writes_mem _ _ _ _ hj with h | h
          · simp [wset] at h
            omega
          · simp at h
            have := Nat.min_le_right o.length (c - 1)
            omega

/-! ## Characterisation of `mystrcat` -/

/-- Inversion for a successful terminator search: the buffer splits as a
zero-free prefix of length `k`, the terminator, and a remainder. -/
theorem findIdx?_zero_inv (buf : List Byte) :
    ∀ k, buf.findIdx? (fun b => b == 0) = some k →
      ∃ p r, buf = p ++ 0 :: r ∧ p.length = k ∧ ∀ b ∈ p, b ≠ 0 := by
  induction buf with
  | nil => intro k h; simp at h
  | cons b bs ih =>
    intro k h
    by_cases hb : b = 0
    · subst hb
      simp at h
      exact ⟨[], bs, by simp, by simp [← h], by simp⟩
    · rw [List.findIdx?_cons, if_neg (by simpa using hb), List.findIdx?_succ] at h
      rcases Option.map_eq_some'.1 h with ⟨k', hk', rfl⟩
      rcases ih k' hk' with ⟨p, r, rfl, hlen, hp⟩
      refine ⟨b :: p, r, by simp, by simp [hlen], ?_⟩
      intro x hx
      rcases List.mem_cons.1 hx with rfl | hx
      · exact hb
      · exact hp x hx

/-- Main characterisation of `mystrcat` on a well-formed destination
(content `p`, terminator, remainder `r`) with a non-null, non-empty
source: the copied portion, the diagnostics and the write bounds. -/
theorem mystrcat_eq (c : Nat) (s p r : List Byte) (hp : ∀ b ∈ p, b ≠ 0)
    (hc : 1 ≤ c) (hlen : p.length < c) (hcap : c ≤ (p ++ 0 :: r).length)
    (hs : 1 ≤ cstrLen s) :
    ∃ w2, mystrcat false c (some s) ⟨p ++ 0 :: r, [], []⟩ = some w2 ∧
      w2.buf = p ++ s.take (min (cstrLen s) (c - 1 - p.length)) ++
        0 :: r.drop (min (cstrLen s) (c - 1 - p.length)) ∧
      w2.diags = (if c - 1 - p.length < cstrLen s
        then [⟨.err, .strcatOverflow⟩] else []) ∧
      (∀ j ∈ w2.writes, j < c) := by
  have hclt : ¬ (c < 1) := by omega
  have hsl := cstrLen_le s
  have hrl : c - 1 - p.length ≤ r.length := by simp at hcap; omega
  have hfind := findIdx?_zero_append p r hp
  have hnge : ¬ (p.length ≥ c) := by omega
  have hslt : ¬ (cstrLen s < 1) := by omega
  by_cases hov : cstrLen s > c - 1 - p.length
  · have hmin : min (cstrLen s) (c - 1 - p.length) = c - 1 - p.length :=
      Nat.min_eq_right (by omega)
    by_cases hz : c - 1 - p.length = 0
    · refine ⟨⟨p ++ 0 :: r, [], [⟨.err, .strcatOverflow⟩]⟩, ?_, ?_, ?_, ?_⟩
      · simp only [mystrcat, Bool.false_eq_true, if_false, if_neg hclt, hfind,
          if_neg hnge, if_neg hslt, if_pos hov, if_neg (by omega : ¬ c - 1 - p.length > 0)]
        simp [report]
      · simp [hmin, hz]
      · simp [if_pos hov]
      · simp
    · have hgt : c - 1 - p.length > 0 := by omega
      refine ⟨wset (wcopy (report ⟨p ++ 0 :: r, [], []⟩ .err .strcatOverflow)
        p.length (s.take (c - 1 - p.length))) (p.length + (c - 1 - p.length)) 0,
        ?_, ?_, ?_, ?_⟩
      · simp only [mystrcat, Bool.false_eq_true, if_false, if_neg hclt, hfind,
          if_neg hnge, if_neg hslt, if_pos hov, if_pos hgt]
      · rw [hmin]
        rw [wset_wcopy_buf_at _ p.length _ _ (by simp; omega)
          (by simp [report]; omega)]
        simp only [report]
        rw [List.take_left' rfl, List.drop_append_eq_append_drop,
          List.drop_of_length_le (by omega),
          (by omega : p.length + (c - 1 - p.length) + 1 - p.length =
            (c - 1 - p.length) + 1), List.nil_append, List.drop_succ_cons]
      · simp only [wset, report, wcopy_diags]
        simp [if_pos hov]
      · intro j hj
        simp only [wset, List.mem_cons] at hj
        rcases hj with rfl | hj
        · omega
        · rcases wcopy_writes_mem _ _ _ _ hj with h | h
          · simp [report] at h
          · simp at h
            omega
  · have hmin : min (cstrLen s) (c - 1 - p.length) = cstrLen s :=
      Nat.min_eq_left (by omega)
    have hgt : cstrLen s > 0 := by omega
    refine ⟨wset (wcopy ⟨p ++ 0 :: r, [], []⟩ p.length (s.take (cstrLen s)))
      (p.length + cstrLen s) 0, ?_, ?_, ?_, ?_⟩
    · simp only [mystrcat, Bool.false_eq_true, if_false, if_neg hclt, hfind,
        if_neg hnge, if_neg hslt, if_neg hov, if_pos hgt]
    · rw [hmin]
      rw [wset_wcopy_buf_at _ p.length _ _ (by simp; omega) (by simp; omega)]
      rw [List.take_left' rfl, List.drop_append_eq_append_drop,
        List.drop_of_length_le (by omega),
        (by omega : p.length + cstrLen s + 1 - p.length = cstrLen s + 1),
        List.nil_append, List.drop_succ_cons]
    · simp only [wset, wcopy_diags]
      simp [if_neg hov]
    · intro j hj
      simp only [wset, List.mem_cons] at hj
      rcases hj with rfl | hj
      · omega
      · rcases wcopy_writes_mem _ _ _ _ hj with h | h
        · simp at h
        · simp at h
          omega

/-! ## Bounds for the `strtol` model -/

theorem takeWhile_length_le {α : Type} (p : α → Bool) (l : List α) :
    (l.takeWhile p).length ≤ l.length := by
  induction l with
  | nil => simp
  | cons b bs ih =>
    cases hpb : p b
    · simp [List.takeWhile_cons, hpb]
    · simp only [List.takeWhile_cons, hpb, if_true, List.length_cons]
      omega

theorem strtolWs_le (s : List Byte) : strtolWs s ≤ s.length :=
  takeWhile_length_le isSpaceB s

theorem strtolSgn_le (s1 : List Byte) : strtolSgn s1 ≤ s1.length := by
  match s1 with
  | [] => simp [strtolSgn]
  | b :: t =>
    simp only [strtolSgn, List.length_cons]
    split <;> omega

theorem strtolPre_le (s2 : List Byte) : strtolPre s2 ≤ s2.length := by
  match s2 with
  | [] => simp [strtolPre, strtolHex]
  | [b0] => simp [strtolPre, strtolHex]
  | [b0, b1] => simp [strtolPre, strtolHex]
  | b0 :: b1 :: b2 :: t =>
    simp only [strtolPre, List.length_cons]
    split <;> omega

/-- `endptr` never points past the terminator: the consumed offset is at
most the input length. -/
theorem strtol0_consumed_le (s : List Byte) : (strtol0 s).consumed ≤ s.length := by
  simp only [strtol0]
  have h1 := strtolWs_le s
  generalize hws : strtolWs s = ws at h1 ⊢
  have h2 := strtolSgn_le (s.drop ws)
  generalize hsgn : strtolSgn (s.drop ws) = sgn at h2 ⊢
  have h3 := strtolPre_le ((s.drop ws).drop sgn)
  generalize hpre : strtolPre ((s.drop ws).drop sgn) = pre at h3 ⊢
  generalize hbase : strtolBase ((s.drop ws).drop sgn) = base
  have h4 := takeWhile_length_le (fun b => (digitVal base b).isSome)
    (((s.drop ws).drop sgn).drop pre)
  generalize hds : (((s.drop ws).drop sgn).drop pre).takeWhile
    (fun b => (digitVal base b).isSome) = ds at h4 ⊢
  simp only [List.length_drop] at h2 h3 h4
  rcases Nat.eq_zero_or_pos ds.length with h0 | h0
  · rw [if_pos h0]
    simp
  · rw [if_neg (by omega)]
    have hcons : ws + sgn + pre + ds.length ≤ s.length := by omega
    cases hneg : strtolNeg (s.drop ws)
    all_goals simp only [hneg, Bool.false_eq_true, if_false, if_true]
    all_goals split
    all_goals try split
    all_goals simpa using hcons

/-! ## Auxiliary facts for the claim theorems -/

theorem readCStr_set_zero_isSome (buf : List Byte) (c : Nat) (hc : 1 ≤ c)
    (hb : 1 ≤ buf.length) :
    (readCStr ((buf.set 0 0).take c)).isSome = true := by
  match buf with
  | [] => simp at hb
  | b :: t =>
    rw [List.set_cons_zero]
    rcases Nat.exists_eq_add_of_le hc with ⟨k, hk⟩
    rw [hk, Nat.add_comm 1 k, List.take_succ_cons]
    simp [readCStr]

theorem mystrcpy_none_buf (c : Nat) (buf : List Byte) (hc : 1 ≤ c) :
    (mystrcpy false c none ⟨buf, [], []⟩).buf = buf.set 0 0 := by
  have hlt : ¬ (c < 1) := by omega
  have hc0 : ¬ (c = 0) := by omega
  simp [mystrcpy, if_neg hlt, hc0, report, wset]

theorem mysprintf_fmtNull_buf (c : Nat) (out : Option (List Byte))
    (buf : List Byte) (hc : 1 ≤ c) :
    (mysprintf false c true out ⟨buf, [], []⟩).buf = buf.set 0 0 := by
  have hlt : ¬ (c < 1) := by omega
  have hc0 : ¬ (c = 0) := by omega
  simp [mysprintf, if_neg hlt, hc0, report, wset]

/-! ## Claim theorems -/

/-- C1: for every destination buffer with declared capacity `c ≥ 1`,
every call to `mystrcpy`, `mystrcat` or `mysprintf` either performs no
write at all, or leaves the buffer holding a null-terminated string of
length strictly less than `c`; and every write any of them performs
lands at an index strictly below `c`. -/
theorem C1_bounded_ops_capacity_safe (c : Nat) (hc : 1 ≤ c) :
    (∀ (src : Option (List Byte)) (buf : List Byte), c ≤ buf.length →
      (((mystrcpy false c src ⟨buf, [], []⟩).writes = [] ∨
        (readCStr ((mystrcpy false c src ⟨buf, [], []⟩).buf.take c)).isSome = true) ∧
       ∀ j ∈ (mystrcpy false c src ⟨buf, [], []⟩).writes, j < c)) ∧
    (∀ (src : Option (List Byte)) (buf : List Byte) (w2 : WBuf), c ≤ buf.length →
      mystrcat false c src ⟨buf, [], []⟩ = some w2 →
      ((w2.writes = [] ∨ (readCStr (w2.buf.take c)).isSome = true) ∧
       ∀ j ∈ w2.writes, j < c)) ∧
    (∀ (fmtNull : Bool) (out : Option (List Byte)) (buf : List Byte),
      c ≤ buf.length →
      (((mysprintf false c fmtNull out ⟨buf, [], []⟩).writes = [] ∨
        (readCStr ((mysprintf false c fmtNull out ⟨buf, [], []⟩).buf.take c)).isSome
          = true) ∧
       ∀ j ∈ (mysprintf false c fmtNull out ⟨buf, [], []⟩).writes, j < c)) := by
  have hclt : ¬ (c < 1) := by omega
  refine ⟨?_, ?_, ?_⟩
  · intro src buf hcap
    refine ⟨Or.inr ?_, mystrcpy_writes_lt c src buf hc⟩
    match src with
    | none =>
      rw [mystrcpy_none_buf c buf hc]
      exact readCStr_set_zero_isSome buf c hc (by omega)
    | some s =>
      rw [mystrcpy_buf_eq c s buf hc hcap]
      refine readCStr_isSome_of_zero_mem _ (zero_mem_take _ _ _ ?_)
      have h1 : (s.take (min (cstrLen s) (c - 1))).length ≤ c - 1 := by
        simp only [List.length_take]
        omega
      omega
  · intro src buf w2 hcap heq
    cases hfind : buf.findIdx? (fun b => b == 0) with
    | none =>
      exfalso
      simp only [mystrcat, Bool.false_eq_true, if_false, if_neg hclt, hfind] at heq
      exact Option.noConfusion heq
    | some k =>
      rcases findIdx?_zero_inv buf k hfind with ⟨p, r, rfl, hlen, hp⟩
      subst hlen
      by_cases hk : p.length ≥ c
      · simp only [mystrcat, Bool.false_eq_true, if_false, if_neg hclt, hfind,
          if_pos hk] at heq
        cases heq
        exact ⟨Or.inl rfl, by simp [report]⟩
      · match src with
        | none =>
          simp only [mystrcat, Bool.false_eq_true, if_false, if_neg hclt, hfind,
            if_neg hk] at heq
          cases heq
          exact ⟨Or.inl rfl, by simp [report]⟩
        | some s =>
          by_cases hs : cstrLen s < 1
          · simp only [mystrcat, Bool.false_eq_true, if_false, if_neg hclt, hfind,
              if_neg hk, if_pos hs] at heq
            cases heq
            exact ⟨Or.inl rfl, by simp⟩
          · rcases mystrcat_eq c s p r hp hc (by omega) hcap (by omega) with
              ⟨w2x, heqx, hbuf, hdiags, hwr⟩
            rw [heqx] at heq
            cases heq
            refine ⟨Or.inr ?_, hwr⟩
            rw [hbuf]
            refine readCStr_isSome_of_zero_mem _ (zero_mem_take _ _ _ ?_)
            have h1 : (s.take (min (cstrLen s) (c - 1 - p.length))).length ≤
                c - 1 - p.length := by
              simp only [List.length_take]
              omega
            simp only [List.length_append]
            omega
  · intro fmtNull out buf hcap
    refine ⟨Or.inr ?_, mysprintf_writes_lt c fmtNull out buf hc⟩
    match fmtNull with
    | true =>
      rw [mysprintf_fmtNull_buf c out buf hc]
      exact readCStr_set_zero_isSome buf c hc (by omega)
    | false =>
      match out with
      | none =>
        rw [mysprintf_buf_none c buf hc]
        exact readCStr_set_zero_isSome buf c hc (by omega)
      | some o =>
        rw [mysprintf_buf_some c o buf hc hcap]
        refine readCStr_isSome_of_zero_mem _ (zero_mem_take _ _ _ ?_)
        have h1 : (o.take (min o.length (c - 1))).length ≤ c - 1 := by
          simp only [List.length_take]
          omega
        omega

/-- C1 witness at `c = 3`. -/
theorem C1_bounded_ops_capacity_safe_witness :
    (1 ≤ 3) ∧
    (((mystrcpy false 3 (some [65, 66, 67]) ⟨[1, 1, 1, 1], [], []⟩).writes = [] ∨
      (readCStr ((mystrcpy false 3 (some [65, 66, 67])
        ⟨[1, 1, 1, 1], [], []⟩).buf.take 3)).isSome = true) ∧
     ∀ j ∈ (mystrcpy false 3 (some [65, 66, 67]) ⟨[1, 1, 1, 1], [], []⟩).writes,
       j < 3) :=
  ⟨by decide,
   (C1_bounded_ops_capacity_safe 3 (by decide)).1 (some [65, 66, 67])
     [1, 1, 1, 1] (by decide)⟩

/-- C2: `mystrcpy` with a valid destination of capacity `c ≥ 1` and a
non-null source `s` stores exactly `s` when `len s < c`, and stores
exactly the first `c - 1` bytes of `s` with a truncation diagnostic
when `len s ≥ c`. -/
theorem C2_mystrcpy_exact_or_truncated (c : Nat) (s buf : List Byte)
    (hc : 1 ≤ c) (hcap : c ≤ buf.length) (hs : (0 : Byte) ∉ s) :
    (s.length < c →
      readCStr (mystrcpy false c (some s) ⟨buf, [], []⟩).buf = some s ∧
      (mystrcpy false c (some s) ⟨buf, [], []⟩).diags = []) ∧
    (c ≤ s.length →
      readCStr (mystrcpy false c (some s) ⟨buf, [], []⟩).buf =
        some (s.take (c - 1)) ∧
      Diag.mk .err .strcpyOverflow ∈
        (mystrcpy false c (some s) ⟨buf, [], []⟩).diags) := by
  have hcl : cstrLen s = s.length := cstrLen_eq_length s hs
  constructor
  · intro hlt
    have hmin : min (cstrLen s) (c - 1) = s.length := by
      rw [hcl]; exact Nat.min_eq_left (by omega)
    constructor
    · rw [mystrcpy_buf_eq c s buf hc hcap, hmin, List.take_length]
      exact readCStr_append s _ (fun b hb h0 => hs (h0 ▸ hb))
    · rw [mystrcpy_diags_eq c s buf hc, if_neg (by omega)]
  · intro hge
    have hmin : min (cstrLen s) (c - 1) = c - 1 := by
      rw [hcl]; exact Nat.min_eq_right (by omega)
    constructor
    · rw [mystrcpy_buf_eq c s buf hc hcap, hmin]
      exact readCStr_append _ _
        (fun b hb h0 => hs (h0 ▸ List.mem_of_mem_take hb))
    · rw [mystrcpy_diags_eq c s buf hc, if_pos (by omega)]
      simp

/-- C2 witness: truncating copy of a 3-byte string into capacity 2. -/
theorem C2_mystrcpy_exact_or_truncated_witness :
    (2 ≤ [1, 1, 1].length) ∧
    readCStr (mystrcpy false 2 (some [65, 66, 67]) ⟨[1, 1, 1], [], []⟩).buf =
      some ([65, 66, 67].take (2 - 1)) ∧
    Diag.mk .err .strcpyOverflow ∈
      (mystrcpy false 2 (some [65, 66, 67]) ⟨[1, 1, 1], [], []⟩).diags :=
  ⟨by decide,
   (C2_mystrcpy_exact_or_truncated 2 [65, 66, 67] [1, 1, 1] (by decide)
     (by decide) (by decide)).2 (by decide)⟩

theorem readCStr_set_zero (buf : List Byte) (hb : 1 ≤ buf.length) :
    readCStr (buf.set 0 0) = some [] := by
  match buf with
  | [] => simp at hb
  | b :: t =>
    rw [List.set_cons_zero]
    simp [readCStr]

/-- C10: whenever `ParseInt` returns failure, the caller-supplied output
location is left unchanged (the code stores to `*nP` only on success). -/
theorem C10_ParseInt_failure_preserves_out (valStr : List Byte) (n0 : Int)
    (h : (ParseInt valStr n0).1 = false) : (ParseInt valStr n0).2 = n0 := by
  simp only [ParseInt] at h ⊢
  split at h
  next hcond => rw [if_pos hcond]
  next hcond => simp at h

/-- C10 witness at the failing input `"42abc"` with prior value 7. -/
theorem C10_ParseInt_failure_preserves_out_witness :
    (ParseInt [52, 50, 97, 98, 99] 7).1 = false ∧
    (ParseInt [52, 50, 97, 98, 99] 7).2 = 7 :=
  ⟨by decide, C10_ParseInt_failure_preserves_out [52, 50, 97, 98, 99] 7 (by decide)⟩

/-- C4: `ParseInt` succeeds iff the input is non-empty, the conversion
consumes at least one byte, it consumes the whole input, and no range
overflow occurred; and the four concrete examples behave as stated. -/
theorem C4_ParseInt_success_iff (s : List Byte) (n0 : Int)
    (hs : (0 : Byte) ∉ s) :
    ((ParseInt s n0).1 = true ↔
      (s ≠ [] ∧ 1 ≤ (strtol0 s).consumed ∧ (strtol0 s).consumed = s.length ∧
        (strtol0 s).errno = 0)) ∧
    ParseInt [52, 50] 0 = (true, 42) ∧
    (ParseInt [52, 50, 97, 98, 99] 0).1 = false ∧
    (ParseInt [] 0).1 = false ∧
    ParseInt [48, 120, 50, 65] 0 = (true, 42) := by
  have hle := strtol0_consumed_le s
  refine ⟨?_, by decide, by decide, by decide, by decide⟩
  constructor
  · intro h
    simp only [ParseInt] at h
    split at h
    · simp at h
    next hcond =>
      push_neg at hcond
      obtain ⟨h1, h2, h3⟩ := hcond
      have hlen : (strtol0 s).consumed = s.length := by
        by_contra hne
        have hlt : (strtol0 s).consumed < s.length := by omega
        rw [List.getD_eq_getElem?_getD, List.getElem?_eq_getElem hlt,
          Option.getD_some] at h2
        exact hs (h2 ▸ List.getElem_mem hlt)
      refine ⟨?_, by omega, hlen, by omega⟩
      intro hnil
      subst hnil
      simp at hlen
      omega
  · rintro ⟨hne, h1, h2, h3⟩
    simp only [ParseInt]
    rw [if_neg]
    push_neg
    refine ⟨by omega, ?_, by omega⟩
    rw [List.getD_eq_getElem?_getD, List.getElem?_eq_none (by omega)]
    rfl

/-- C4 witness at the concrete input `"42"`. -/
theorem C4_ParseInt_success_iff_witness :
    ((ParseInt [52, 50] 0).1 = true ↔
      (([52, 50] : List Byte) ≠ [] ∧ 1 ≤ (strtol0 [52, 50]).consumed ∧
        (strtol0 [52, 50]).consumed = [52, 50].length ∧
        (strtol0 [52, 50]).errno = 0)) ∧
    ParseInt [52, 50] 0 = (true, 42) :=
  ⟨(C4_ParseInt_success_iff [52, 50] 0 (by decide)).1,
   (C4_ParseInt_success_iff [52, 50] 0 (by decide)).2.1⟩

/-- C5: `mysprintf` with a valid destination of capacity `c ≥ 1` and a
valid format stores the whole formatted output when it fits in `c - 1`
bytes; stores exactly its first `c - 1` bytes, re-terminated at index
`c - 1`, with a truncation report, when the output length reaches `c`;
and forces the destination to the empty string on a formatting
failure. -/
theorem C5_mysprintf_output (c : Nat) (buf : List Byte) (hc : 1 ≤ c)
    (hcap : c ≤ buf.length) :
    (∀ o : List Byte, (0 : Byte) ∉ o → o.length ≤ c - 1 →
      readCStr (mysprintf false c false (some o) ⟨buf, [], []⟩).buf = some o ∧
      (mysprintf false c false (some o) ⟨buf, [], []⟩).diags = []) ∧
    (∀ o : List Byte, (0 : Byte) ∉ o → c ≤ o.length →
      readCStr (mysprintf false c false (some o) ⟨buf, [], []⟩).buf =
        some (o.take (c - 1)) ∧
      Diag.mk .err .sprintfOverflow ∈
        (mysprintf false c false (some o) ⟨buf, [], []⟩).diags ∧
      (c - 1) ∈ (mysprintf false c false (some o) ⟨buf, [], []⟩).writes) ∧
    (readCStr (mysprintf false c false none ⟨buf, [], []⟩).buf = some [] ∧
      Diag.mk .err .sprintfError ∈
        (mysprintf false c false none ⟨buf, [], []⟩).diags) := by
  have hclt : ¬ (c < 1) := by omega
  refine ⟨?_, ?_, ?_, ?_⟩
  · intro o ho hfit
    constructor
    · rw [mysprintf_buf_some c o buf hc hcap,
        Nat.min_eq_left (by omega), List.take_length]
      exact readCStr_append o _ (fun b hb h0 => ho (h0 ▸ hb))
    · rw [mysprintf_diags_eq c (some o) buf hc]
      simp only [if_neg (show ¬ c ≤ o.length by omega)]
  · intro o ho hov
    refine ⟨?_, ?_, ?_⟩
    · rw [mysprintf_buf_some c o buf hc hcap, Nat.min_eq_right (by omega)]
      exact readCStr_append _ _
        (fun b hb h0 => ho (h0 ▸ List.mem_of_mem_take hb))
    · rw [mysprintf_diags_eq c (some o) buf hc]
      simp only [if_pos (show c ≤ o.length from hov)]
      simp
    · simp only [mysprintf, Bool.false_eq_true, if_false, if_neg hclt,
        if_pos (show o.length ≥ c from hov), wset]
      exact List.mem_cons_self _ _
  · rw [mysprintf_buf_none c buf hc]
    exact readCStr_set_zero buf (by omega)
  · rw [mysprintf_diags_eq c none buf hc]
    simp

/-- C5 witness at capacity 3, buffer of 4 bytes, output `"AB"`. -/
theorem C5_mysprintf_output_witness :
    readCStr (mysprintf false 3 false (some [65, 66]) ⟨[1, 1, 1, 1], [], []⟩).buf =
      some [65, 66] ∧
    (mysprintf false 3 false (some [65, 66]) ⟨[1, 1, 1, 1], [], []⟩).diags = [] :=
  (C5_mysprintf_output 3 [1, 1, 1, 1] (by decide) (by decide)).1
    [65, 66] (by decide) (by decide)

/-- C6 counterexample: with a non-null destination holding the string
`[7]` and declared capacity 0, `mysprintf` reports the error but
performs no write at all, so the destination is NOT left as an empty
string — the `dstSize < 1` check fires before the `dst[0] = 0` store. -/
theorem C6_capacity_zero_not_emptied :
    (mysprintf false 0 false (some [65]) ⟨[7, 0], [], []⟩).writes = [] ∧
    (mysprintf false 0 false (some [65]) ⟨[7, 0], [], []⟩).buf = [7, 0] ∧
    readCStr (mysprintf false 0 false (some [65]) ⟨[7, 0], [], []⟩).buf ≠
      some [] ∧
    (mysprintf false 0 false (some [65]) ⟨[7, 0], [], []⟩).diags =
      [⟨.err, .sprintfBadSize⟩] := by
  decide

/-- C6 amended: every precondition violation of `mysprintf` reports a
diagnostic; an absent destination or a capacity `< 1` performs no write
at all (the destination, if any, keeps its previous contents); only a
null format with a valid destination and capacity `≥ 1` leaves the
destination as an empty string. -/
theorem C6_mysprintf_precondition_violations (c : Nat) (fmtNull : Bool)
    (out : Option (List Byte)) (buf : List Byte) :
    (mysprintf true c fmtNull out ⟨buf, [], []⟩ =
      ⟨buf, [], [⟨.err, .sprintfNullDst⟩]⟩) ∧
    (c = 0 → mysprintf false c fmtNull out ⟨buf, [], []⟩ =
      ⟨buf, [], [⟨.err, .sprintfBadSize⟩]⟩) ∧
    (1 ≤ c → 1 ≤ buf.length →
      mysprintf false c true out ⟨buf, [], []⟩ =
        ⟨buf.set 0 0, [0], [⟨.err, .sprintfNullFmt⟩]⟩ ∧
      readCStr (mysprintf false c true out ⟨buf, [], []⟩).buf = some []) := by
  refine ⟨?_, ?_, ?_⟩
  · simp [mysprintf, report]
  · intro h0
    subst h0
    simp [mysprintf, report]
  · intro hc hb
    have hclt : ¬ (c < 1) := by omega
    have hc0 : ¬ (c = 0) := by omega
    constructor
    · simp [mysprintf, if_neg hclt, hc0, wset, report]
    · rw [mysprintf_fmtNull_buf c out buf hc]
      exact readCStr_set_zero buf hb

/-- C6 amended witness: null format with capacity 1. -/
theorem C6_mysprintf_precondition_violations_witness :
    mysprintf false 1 true none ⟨[5], [], []⟩ =
      ⟨[0], [0], [⟨.err, .sprintfNullFmt⟩]⟩ ∧
    readCStr (mysprintf false 1 true none ⟨[5], [], []⟩).buf = some [] := by
  have h := (C6_mysprintf_precondition_violations 1 true none [5]).2.2
    (by decide) (by decide)
  exact ⟨by rw [h.1]; rfl, h.2⟩

/-- Appending an empty source on a well-formed destination is accepted
and returns the state unchanged. -/
theorem mystrcat_empty_src (c : Nat) (p r : List Byte) (hp : ∀ b ∈ p, b ≠ 0)
    (hc : 1 ≤ c) (hlen : p.length < c) :
    mystrcat false c (some []) ⟨p ++ 0 :: r, [], []⟩ =
      some ⟨p ++ 0 :: r, [], []⟩ := by
  have hclt : ¬ (c < 1) := by omega
  simp only [mystrcat, Bool.false_eq_true, if_false, if_neg hclt,
    findIdx?_zero_append p r hp, if_neg (show ¬ p.length ≥ c by omega)]
  rw [if_pos]
  simp [cstrLen]

/-- C7: appending the empty string never changes the destination
contents, and `mystrcpy s1` followed by `mystrcat s2` produces the same
buffer contents as a single `mystrcpy (s1 ++ s2)`, truncation rule
included. -/
theorem C7_append_agrees_with_copy_of_concat (c : Nat) (s1 s2 buf : List Byte)
    (hc : 1 ≤ c) (hcap : c ≤ buf.length) (h1 : (0 : Byte) ∉ s1)
    (h2 : (0 : Byte) ∉ s2) :
    (∀ (dn : Bool) (csz : Nat) (wb w2 : WBuf),
        mystrcat dn csz (some []) wb = some w2 →
        w2.buf = wb.buf ∧ w2.writes = wb.writes) ∧
    (∃ w2, mystrcat false c (some s2)
        ⟨(mystrcpy false c (some s1) ⟨buf, [], []⟩).buf, [], []⟩ = some w2 ∧
      w2.buf = (mystrcpy false c (some (s1 ++ s2)) ⟨buf, [], []⟩).buf) := by
  have hl1 : cstrLen s1 = s1.length := cstrLen_eq_length s1 h1
  have hl2 : cstrLen s2 = s2.length := cstrLen_eq_length s2 h2
  have h12 : (0 : Byte) ∉ s1 ++ s2 := by
    intro hm
    rcases List.mem_append.1 hm with hm | hm
    · exact h1 hm
    · exact h2 hm
  have hl12 : cstrLen (s1 ++ s2) = s1.length + s2.length := by
    rw [cstrLen_eq_length _ h12, List.length_append]
  constructor
  · intro dn csz wb w2 heq
    simp only [mystrcat] at heq
    split at heq
    · cases heq
      exact ⟨by simp [report], by simp [report]⟩
    · split at heq
      · cases heq
        exact ⟨by simp [report], by simp [report]⟩
      · split at heq
        · exact Option.noConfusion heq
        · split at heq
          · cases heq
            exact ⟨by simp [report], by simp [report]⟩
          · rw [if_pos (by simp [cstrLen])] at heq
            cases heq
            exact ⟨rfl, rfl⟩
  · have hbuf1 : (mystrcpy false c (some s1) ⟨buf, [], []⟩).buf =
        s1.take (min s1.length (c - 1)) ++
          0 :: buf.drop (min s1.length (c - 1) + 1) := by
      rw [mystrcpy_buf_eq c s1 buf hc hcap, hl1]
    have hbufR : (mystrcpy false c (some (s1 ++ s2)) ⟨buf, [], []⟩).buf =
        (s1 ++ s2).take (min (s1.length + s2.length) (c - 1)) ++
          0 :: buf.drop (min (s1.length + s2.length) (c - 1) + 1) := by
      rw [mystrcpy_buf_eq c (s1 ++ s2) buf hc hcap, hl12]
    have hp : ∀ b ∈ s1.take (min s1.length (c - 1)), b ≠ 0 :=
      fun b hb h0 => h1 (h0 ▸ List.mem_of_mem_take hb)
    have hplen : (s1.take (min s1.length (c - 1))).length =
        min s1.length (c - 1) := by
      simp only [List.length_take]
      omega
    by_cases hs2 : s2 = []
    case pos =>
      subst hs2
      refine ⟨⟨(mystrcpy false c (some s1) ⟨buf, [], []⟩).buf, [], []⟩, ?_, ?_⟩
      · rw [hbuf1]
        exact mystrcat_empty_src c _ _ hp hc (by omega)
      · rw [hbuf1, hbufR]
        simp
    case neg =>
      have hs2len : 1 ≤ s2.length := List.length_pos.2 hs2
      have hcap2 : c ≤ (s1.take (min s1.length (c - 1)) ++
          0 :: buf.drop (min s1.length (c - 1) + 1)).length := by
        simp only [List.length_append, List.length_cons, List.length_drop, hplen]
        omega
      rcases mystrcat_eq c s2 (s1.take (min s1.length (c - 1)))
          (buf.drop (min s1.length (c - 1) + 1)) hp hc
          (by rw [hplen]; omega) hcap2 (by omega) with
        ⟨w2, heq, hbufw, _hd, _hw⟩
      refine ⟨w2, ?_, ?_⟩
      · rw [hbuf1]
        exact heq
      · rw [hbufw, hbufR, hl2, hplen]
        have hdrop : (buf.drop (min s1.length (c - 1) + 1)).drop
            (min s2.length (c - 1 - min s1.length (c - 1))) =
            buf.drop (min (s1.length + s2.length) (c - 1) + 1) := by
          rw [List.drop_drop]
          congr 1
          omega
        have htake : (s1 ++ s2).take (min (s1.length + s2.length) (c - 1)) =
            s1.take (min s1.length (c - 1)) ++
              s2.take (min s2.length (c - 1 - min s1.length (c - 1))) := by
          rw [List.take_append_eq_append_take]
          by_cases hfit : s1.length ≤ c - 1
          · rw [List.take_of_length_le (by omega), Nat.min_eq_left hfit,
              List.take_length]
            have harith : min (s1.length + s2.length) (c - 1) - s1.length =
                min s2.length (c - 1 - s1.length) := by omega
            rw [harith]
          · have hz2 : min s2.length (c - 1 - min s1.length (c - 1)) = 0 := by
              omega
            have hz : min (s1.length + s2.length) (c - 1) = c - 1 :=
              Nat.min_eq_right (by omega)
            have hn1 : min s1.length (c - 1) = c - 1 := Nat.min_eq_right (by omega)
            rw [hz2, hz, hn1]
            have hz3 : c - 1 - s1.length = 0 := by omega
            rw [hz3]
        rw [hdrop, htake]
/-- C7 witness at `c = 6`, `s1 = "AB"`, `s2 = "CD"`. -/
theorem C7_append_agrees_with_copy_of_concat_witness :
    ∃ w2, mystrcat false 6 (some [67, 68])
        ⟨(mystrcpy false 6 (some [65, 66]) ⟨[1, 1, 1, 1, 1, 1], [], []⟩).buf,
          [], []⟩ = some w2 ∧
      w2.buf = (mystrcpy false 6 (some ([65, 66] ++ [67, 68]))
        ⟨[1, 1, 1, 1, 1, 1], [], []⟩).buf :=
  (C7_append_agrees_with_copy_of_concat 6 [65, 66] [67, 68] [1, 1, 1, 1, 1, 1]
    (by decide) (by decide) (by decide) (by decide)).2

/-- C3: `LockProcess` returns failure exactly when `open` fails or the
non-blocking `lockf` attempt fails; it never closes any descriptor (in
particular not the one left open on a `lockf` failure); and `ftruncate`
or `write` failures only add debug diagnostics while the call still
returns success. -/
theorem C3_LockProcess_failure_modes (component : List Byte) (env : LockEnv)
    (lock : LockFile) :
    ((LockProcess component env lock).ok = false ↔
      ((∃ e, env.openRes = .error e) ∨
       ((∃ fd, env.openRes = .ok fd) ∧ env.lockfErr ≠ none))) ∧
    (∀ fd, Sys.closeCall fd ∉ (LockProcess component env lock).calls) ∧
    ((∃ fd, env.openRes = .ok fd) → env.lockfErr = none → ¬ env.ftruncateOk →
      Diag.mk .dbg (.lockTruncateFailed env.ftruncateErr) ∈
        (LockProcess component env lock).diags ∧
      (LockProcess component env lock).ok = true) ∧
    ((∃ fd, env.openRes = .ok fd) → env.lockfErr = none →
      env.writeRes < (((readCStr (mysprintf false 16 false
          (some (decBytes env.pid ++ [10]))
          ⟨List.replicate 16 0, [], []⟩).buf).getD []).length : Int) →
      Diag.mk .dbg (.lockWriteFailed env.writeErr) ∈
        (LockProcess component env lock).diags ∧
      (LockProcess component env lock).ok = true) := by
  cases hopen : env.openRes with
  | error e =>
    refine ⟨?_, ?_, ?_, ?_⟩
    · simp only [LockProcess, hopen]
      constructor
      · intro _
        exact Or.inl ⟨e, rfl⟩
      · intro _
        trivial
    · intro fd
      simp [LockProcess, hopen]
    · rintro ⟨fd, hfd⟩
      exact Except.noConfusion hfd
    · rintro ⟨fd, hfd⟩
      exact Except.noConfusion hfd
  | ok fd =>
    cases hlockf : env.lockfErr with
    | some e =>
      refine ⟨?_, ?_, ?_, ?_⟩
      · simp only [LockProcess, hopen, hlockf]
        constructor
        · intro _
          exact Or.inr ⟨⟨fd, rfl⟩, by simp⟩
        · intro _
          trivial
      · intro fd2
        simp only [LockProcess, hopen, hlockf]
        simp
      · rintro - hlf
        exact Option.noConfusion hlf
      · rintro - hlf
        exact Option.noConfusion hlf
    | none =>
      refine ⟨?_, ?_, ?_, ?_⟩
      · simp only [LockProcess, hopen, hlockf]
        constructor
        · intro h
          exact Bool.noConfusion h
        · rintro (⟨e, he⟩ | ⟨-, hne⟩)
          · exact Except.noConfusion he
          · exact absurd rfl hne
      · intro fd2
        simp only [LockProcess, hopen, hlockf]
        simp
      · rintro - - hft
        constructor
        · simp only [LockProcess, hopen, hlockf]
          rw [Bool.not_eq_true] at hft
          rw [hft]
          simp
        · simp only [LockProcess, hopen, hlockf]
      · rintro - - hwr
        constructor
        · simp only [LockProcess, hopen, hlockf]
          rw [if_pos hwr]
          simp
        · simp only [LockProcess, hopen, hlockf]

/-- C3 witness: successful open and lock, failing `ftruncate`. -/
theorem C3_LockProcess_failure_modes_witness :
    Diag.mk .dbg (.lockTruncateFailed 9) ∈
      (LockProcess [120] ⟨100, Except.ok 5, none, false, 9, 4, 0⟩
        ⟨List.replicate PATH_MAX 0, 0⟩).diags ∧
    (LockProcess [120] ⟨100, Except.ok 5, none, false, 9, 4, 0⟩
      ⟨List.replicate PATH_MAX 0, 0⟩).ok = true :=
  (C3_LockProcess_failure_modes [120] ⟨100, Except.ok 5, none, false, 9, 4, 0⟩
    ⟨List.replicate PATH_MAX 0, 0⟩).2.2.1 ⟨5, rfl⟩ rfl (by decide)

/-- C8 counterexample: a failing `LockProcess` call (the `open` fails
with `EACCES` = 13) nevertheless changes the path field of the
singleton handle, because the path is formatted into `lock->path`
before the `open` attempt.  So "both fields unchanged on every failing
call" is false. -/
theorem C8_failing_lock_changes_path :
    (LockProcess [120] ⟨100, Except.error 13, none, true, 0, 4, 0⟩
      ⟨List.replicate PATH_MAX 0, 0⟩).ok = false ∧
    (LockProcess [120] ⟨100, Except.error 13, none, true, 0, 4, 0⟩
      ⟨List.replicate PATH_MAX 0, 0⟩).lock.path ≠ List.replicate PATH_MAX 0 := by
  constructor
  · rfl
  · intro h
    have h0 : (LockProcess [120] ⟨100, Except.error 13, none, true, 0, 4, 0⟩
        ⟨List.replicate PATH_MAX 0, 0⟩).lock.path.take 1 =
        (List.replicate PATH_MAX 0).take 1 := by rw [h]
    revert h0
    decide

/-- C8 amended: only the descriptor field of the singleton is recorded
exclusively by a successful call — every failing call leaves `fd`
unchanged — while the path field is overwritten with the formatted lock
file path on every call, before the `open` attempt. -/
theorem C8_fd_only_on_success (component : List Byte) (env : LockEnv)
    (lock : LockFile) :
    ((LockProcess component env lock).ok = false →
      (LockProcess component env lock).lock.fd = lock.fd) ∧
    (LockProcess component env lock).lock.path =
      (mysprintf false PATH_MAX false
        (some (locksDirBytes ++ 47 :: component.takeWhile (fun b => b != 0)
          ++ dotPidBytes)) ⟨lock.path, [], []⟩).buf := by
  cases hopen : env.openRes with
  | error e =>
    constructor
    · intro _
      simp only [LockProcess, hopen]
    · simp only [LockProcess, hopen]
  | ok fd =>
    cases hlockf : env.lockfErr with
    | some e =>
      constructor
      · intro _
        simp only [LockProcess, hopen, hlockf]
      · simp only [LockProcess, hopen, hlockf]
    | none =>
      constructor
      · intro h
        have : (LockProcess component env lock).ok = true := by
          simp only [LockProcess, hopen, hlockf]
        rw [this] at h
        exact Bool.noConfusion h
      · simp only [LockProcess, hopen, hlockf]

/-- C8 amended witness: the failing open leaves `fd = 7` unchanged. -/
theorem C8_fd_only_on_success_witness :
    (LockProcess [120] ⟨100, Except.error 13, none, true, 0, 4, 0⟩
      ⟨List.replicate PATH_MAX 0, 7⟩).ok = false ∧
    (LockProcess [120] ⟨100, Except.error 13, none, true, 0, 4, 0⟩
      ⟨List.replicate PATH_MAX 0, 7⟩).lock.fd = 7 :=
  ⟨rfl,
   (C8_fd_only_on_success [120] ⟨100, Except.error 13, none, true, 0, 4, 0⟩
     ⟨List.replicate PATH_MAX 0, 7⟩).1 rfl⟩

/-- C9 counterexample: with a zero-valued singleton (descriptor 0, all
zero path), `UnlockProcess` closes file descriptor 0, which was open
(stdin) and not opened by this core: an observable effect on a foreign
resource, contradicting the "no observable effect" claim. -/
theorem C9_release_on_zero_closes_fd0 :
    runSys ⟨[0, 1, 2], [[97]]⟩
      (UnlockProcess ⟨List.replicate PATH_MAX 0, 0⟩) =
      ⟨[1, 2], [[97]]⟩ ∧
    (⟨[1, 2], [[97]]⟩ : OS) ≠ ⟨[0, 1, 2], [[97]]⟩ := by
  decide

/-- C9 amended: release on the never-acquired (zero-valued) singleton
never does anything beyond closing descriptor 0: the `unlink` of the
empty path fails harmlessly with no effect on any file, and nothing
crashes; but the `close(0)` does close descriptor 0 when it is open. -/
theorem C9_release_on_zero_effect (os : OS) :
    runSys os (UnlockProcess ⟨List.replicate PATH_MAX 0, 0⟩) =
      ⟨os.fds.erase 0, os.files⟩ := by
  have hread : readCStr (List.replicate PATH_MAX 0) = some [] := by decide
  simp [UnlockProcess, runSys, applySys, hread]
